import Mathlib

/-!
Verification development for the CLTC_SL repository (files `at.py` and
`run_ld.py`): a shallow embedding of the FGM adversarial perturbation
engine, the self-training confidence ranker (`sort`), the warmup
learning-rate schedule, and the best-accuracy checkpoint logic, together
with theorems settling the specification's claims about them.
-/

/-! ## Definitions

### Generic helpers: insertion-ordered dictionaries and substring test

Python `dict` preserves insertion order; assignment to an existing key
replaces the value in place, assignment to a fresh key appends it.  We
model a dict as an association list with exactly that update rule.
-/

/-- Lookup in an insertion-ordered dictionary (association list). -/
def dictFind {κ β : Type} [DecidableEq κ] : List (κ × β) → κ → Option β
  | [], _ => none
  | kv :: rest, k => if kv.1 = k then some kv.2 else dictFind rest k

/-- Python dict assignment `d[k] = v`: replace the value in place when the
key is present, append the new binding otherwise. -/
def dictInsert {κ β : Type} [DecidableEq κ] : List (κ × β) → κ → β → List (κ × β)
  | [], k, v => [(k, v)]
  | kv :: rest, k, v => if kv.1 = k then (k, v) :: rest else kv :: dictInsert rest k v

/-- Python substring containment `needle in hay` on strings. -/
def strContains (needle hay : String) : Bool :=
  (List.range (hay.data.length + 1)).any (fun i => needle.data.isPrefixOf (hay.data.drop i))

/-! ### Embedding of `at.py` (class FGM)

Tensor values are modelled as scalar (0-dimensional) tensors: `none` is
IEEE NaN, `some q` a finite value.  For a scalar tensor `g`,
`torch.norm(g)` is `|g|` (NaN when `g` is NaN); `torch.norm` of a finite
scalar is never NaN, and it is zero exactly when the scalar is zero, so
the guard `norm != 0 and not torch.isnan(norm)` of `attack` holds exactly
when the gradient is a finite nonzero scalar.
-/

namespace AT

/-- Scalar tensor value: `none` models NaN. -/
abbrev F := Option ℚ

/-- Tensor addition, with NaN propagation (models `param.data.add_(r_at)`). -/
def fAdd : F → F → F
  | some a, some b => some (a + b)
  | _, _ => none

/-- One named model parameter as seen by `model.named_parameters()`. -/
structure Param where
  name : String
  requiresGrad : Bool
  data : F
  grad : F
deriving DecidableEq

/-- State of the `FGM` object: the model's parameter list and the
perturbation backup dict `self.backup`. -/
structure FGM where
  model : List Param
  backup : List (String × F)
deriving DecidableEq

/-- Guard shared by `attack` and `restore` (at.py lines 15 and 26):
`param.requires_grad and emb_name in name`. -/
def matchesFilter (emb_name : String) (p : Param) : Bool :=
  p.requiresGrad && strContains emb_name p.name

/-- Loop body of `FGM.attack` (at.py lines 14-20), processing the
parameter list in order while threading the backup dict: every matching
parameter is first snapshotted into the backup, then displaced by
`epsilon * grad / norm` when its gradient norm is nonzero and not NaN. -/
def attackLoop (epsilon : ℚ) (emb_name : String) :
    List Param → List (String × F) → List Param × List (String × F)
  | [], backup => ([], backup)
  | p :: rest, backup =>
    if matchesFilter emb_name p then
      let backup' := dictInsert backup p.name p.data
      let p' :=
        match p.grad with
        | none => p
        | some g =>
          if |g| ≠ 0 then { p with data := fAdd p.data (some (epsilon * g / |g|)) } else p
      let r := attackLoop epsilon emb_name rest backup'
      (p' :: r.1, r.2)
    else
      let r := attackLoop epsilon emb_name rest backup
      (p :: r.1, r.2)

/-- FGM.attack (at.py lines 11-20).  In the source `epsilon` defaults to
`1.0` and `emb_name` to the BERT word-embedding prefix. -/
def FGM.attack (f : FGM) (epsilon : ℚ) (emb_name : String) : FGM :=
  let r := attackLoop epsilon emb_name f.model f.backup
  { model := r.1, backup := r.2 }

/-- Loop body of `FGM.restore` (at.py lines 25-28): each matching
parameter must have a snapshot in the backup (`assert name in
self.backup`, modelled by returning `none` on failure) and gets its data
overwritten by that snapshot. -/
def restoreLoop (emb_name : String) (backup : List (String × F)) :
    List Param → Option (List Param)
  | [] => some []
  | p :: rest =>
    if matchesFilter emb_name p then
      match dictFind backup p.name with
      | none => none
      | some v =>
        match restoreLoop emb_name backup rest with
        | none => none
        | some rest' => some ({ p with data := v } :: rest')
    else
      match restoreLoop emb_name backup rest with
      | none => none
      | some rest' => some (p :: rest')

/-- FGM.restore (at.py lines 23-29): restore every matching parameter
from the backup, then clear the backup (`self.backup = {}`). -/
def FGM.restore (f : FGM) (emb_name : String) : Option FGM :=
  match restoreLoop emb_name f.backup f.model with
  | none => none
  | some m => some { model := m, backup := [] }

/-- Effect of one `attack` pass on a single parameter (the data update of
at.py lines 17-20, separated from the backup bookkeeping). -/
def attackParam (epsilon : ℚ) (emb_name : String) (p : Param) : Param :=
  if matchesFilter emb_name p then
    match p.grad with
    | none => p
    | some g =>
      if |g| ≠ 0 then { p with data := fAdd p.data (some (epsilon * g / |g|)) } else p
  else p

/-- Backup dict produced by one `attack` pass (the line-16 snapshots, in
parameter order). -/
def attackBackup (emb_name : String) (ps : List Param) (b : List (String × F)) :
    List (String × F) :=
  ps.foldl (fun d p => if matchesFilter emb_name p then dictInsert d p.name p.data else d) b

end AT

/-! ### Embedding of `run_ld.py`: warmup schedule and learning rate -/

namespace RunLD

/-- warmup_linear (run_ld.py lines 380-383).  In the source `warmup`
defaults to `0.002`. -/
def warmup_linear (x warmup : ℚ) : ℚ :=
  if x < warmup then x / warmup else 1 - x

/-- Effective learning rate computed at run_ld.py lines 470-471:
`args.learning_rate * warmup_linear(args.global_step / args.t_total,
args.warmup_proportion)`. -/
def lr_this_step (learning_rate : ℚ) (global_step t_total : ℕ) (warmup_proportion : ℚ) : ℚ :=
  learning_rate * warmup_linear ((global_step : ℚ) / (t_total : ℚ)) warmup_proportion

/-! ### Embedding of `run_ld.py`: the confidence ranker `sort`
(lines 387-413)

An example (or encoded feature) is reduced to the two fields the ranker
touches: its identifier and its label index.  Confidence scores are
rationals.  Python's `sorted(..., reverse=True, key=lambda kv: kv[1])` is
a stable sort placing higher confidence first and keeping original order
among equal confidences; a list with exactly that ordering is produced by
insertion sort with the relation "left confidence is at least right
confidence", which is how we model it.
-/

/-- Training example / encoded feature as seen by the ranker: identifier
and label index (`ex.label_id` is the only field `sort` mutates; the
remaining feature fields are irrelevant to ranking). -/
structure Example where
  guid : ℕ
  label_id : ℕ
deriving DecidableEq

/-- Default used for hypothesis-guarded (unreachable) out-of-range
indexing. -/
def exDefault : Example := { guid := 0, label_id := 0 }

/-- Ordering used at run_ld.py line 402: candidate `a` goes before `b`
when `a`'s confidence is at least `b`'s. -/
def confGE (a b : ℕ × ℚ) : Prop := b.2 ≤ a.2

instance : DecidableRel confGE := fun a b => inferInstanceAs (Decidable (b.2 ≤ a.2))

/-- Python `sorted(i2cs.items(), reverse=True, key=lambda kv: kv[1])`. -/
def confDesc (l : List (ℕ × ℚ)) : List (ℕ × ℚ) := List.insertionSort confGE l

/-- Descending order on plain indices, for run_ld.py line 410. -/
def natGE (a b : ℕ) : Prop := b ≤ a

instance : DecidableRel natGE := fun a b => inferInstanceAs (Decidable (b ≤ a))

instance : IsTotal ℕ natGE := ⟨fun a b => le_total b a⟩

instance : IsTrans ℕ natGE := ⟨fun _ _ _ h1 h2 => le_trans h2 h1⟩

/-- Python `sorted(id2train, reverse=True)`. -/
def natDesc (l : List ℕ) : List ℕ := List.insertionSort natGE l

/-- Update of `label2id` for one confidence record (run_ld.py lines
392-394): create the label's bucket on first sight, then add the record
`(i, confidence)` keyed by its position. -/
def addRecord (d : List (ℕ × List (ℕ × ℚ))) (i : ℕ) (item : ℕ × ℚ) :
    List (ℕ × List (ℕ × ℚ)) :=
  match dictFind d item.1 with
  | none => d ++ [(item.1, [(i, item.2)])]
  | some b => dictInsert d item.1 (b ++ [(i, item.2)])

/-- Loop of run_ld.py lines 391-394 (`for i, item in enumerate(id2conf)`),
with the running position `i` made explicit. -/
def buildAux : ℕ → List (ℕ × ℚ) → List (ℕ × List (ℕ × ℚ)) → List (ℕ × List (ℕ × ℚ))
  | _, [], d => d
  | i, item :: rest, d => buildAux (i + 1) rest (addRecord d i item)

/-- The `label2id` dict grouping unlabeled-pool indices (with their
confidences) by predicted label. -/
def buildLabel2Id (id2conf : List (ℕ × ℚ)) : List (ℕ × List (ℕ × ℚ)) :=
  buildAux 0 id2conf []

/-- Example appended to the labeled pool for a selected candidate
(run_ld.py lines 406-408): the unlabeled example with its label
overwritten by the class being processed. -/
def promoted (eval_examples : List Example) (i : ℕ) (i2c : ℕ × ℚ) : Example :=
  { (eval_examples.getD i2c.1 exDefault) with label_id := i }

/-- Body of the per-label loop of run_ld.py lines 396-408: skip a label
with no candidates (the non-fatal `"no class i"` diagnostic), otherwise
sort its candidates by confidence descending and promote the first
`num_k`, recording their indices in `id2train` and appending the
relabeled examples to the labeled pool. -/
def promoteStep (label2id : List (ℕ × List (ℕ × ℚ))) (eval_examples : List Example)
    (num_k : ℕ) (acc : List ℕ × List Example) (i : ℕ) : List ℕ × List Example :=
  match dictFind label2id i with
  | none => acc
  | some i2cs =>
    ((confDesc i2cs).take num_k).foldl
      (fun a i2c => (a.1 ++ [i2c.1], a.2 ++ [promoted eval_examples i i2c])) acc

/-- sort (run_ld.py lines 387-413): group unlabeled examples by predicted
label, promote the top-`num_k` most confident candidates of each label in
vocabulary order into the labeled pool (overwriting their labels), then
delete the promoted indices from the unlabeled pool in descending order.
Out-of-range indexing (impossible when `id2conf` holds one record per
unlabeled example) is modelled by `getD` and a no-op `eraseIdx` rather
than a Python `IndexError`. -/
def sort (train_examples eval_examples : List Example) (label_list : List String)
    (id2conf : List (ℕ × ℚ)) (num_k : ℕ) : List Example × List Example :=
  let label2id := buildLabel2Id id2conf
  let acc := (List.range label_list.length).foldl
    (promoteStep label2id eval_examples num_k) ([], train_examples)
  let ud_unlabel := (natDesc acc.1).foldl (fun l j => l.eraseIdx j) eval_examples
  (acc.2, ud_unlabel)

/-- Selection made for one label (analysis view of `promoteStep`). -/
def selFor (label2id : List (ℕ × List (ℕ × ℚ))) (num_k : ℕ) (i : ℕ) : List (ℕ × ℚ) :=
  match dictFind label2id i with
  | none => []
  | some i2cs => (confDesc i2cs).take num_k

/-- The `id2train` index list accumulated over a list of labels. -/
def selIdx (label2id : List (ℕ × List (ℕ × ℚ))) (num_k : ℕ) (labels : List ℕ) : List ℕ :=
  labels.flatMap (fun i => (selFor label2id num_k i).map Prod.fst)

/-- Specification of the bucket `label2id[c]`: the positions in the
record list (counted from `i0`) holding a record predicting class `c`,
each paired with its confidence, in position order. -/
def bucketSpec (i0 : ℕ) (l : List (ℕ × ℚ)) (c : ℕ) : List (ℕ × ℚ) :=
  match l with
  | [] => []
  | item :: rest =>
    (if item.1 = c then [(i0, item.2)] else []) ++ bucketSpec (i0 + 1) rest c

/-- Combination used to state the `buildAux` invariant: a bucket already
present in the dict is extended, a nonempty new bucket is created, an
empty contribution leaves an absent key absent. -/
def bucketJoin (o : Option (List (ℕ × ℚ))) (s : List (ℕ × ℚ)) : Option (List (ℕ × ℚ)) :=
  match o with
  | some b => some (b ++ s)
  | none => if s = [] then none else some s

/-! ### Embedding of `run_ld.py`: best-accuracy watermark

The training loop's checkpoint logic (lines 528-535) and the
self-training driver's threading of `best_acc` (lines 827-888) are
embedded with the per-epoch validation accuracies as external inputs; the
watermark state carries the list of accuracies at which a checkpoint was
persisted (each `torch.save` call), in order.
-/

/-- Epoch-end checkpoint decision (run_ld.py lines 529-534): when the
validation accuracy strictly exceeds the best-seen watermark, raise the
watermark and persist a checkpoint. -/
def epochEnd (s : ℚ × List ℚ) (acc : ℚ) : ℚ × List ℚ :=
  if acc > s.1 then (acc, s.2 ++ [acc]) else s

/-- train (run_ld.py lines 416-536), restricted to its best-accuracy
watermark state: one call folds the epoch-end decision over the round's
per-epoch validation accuracies and returns the updated watermark. -/
def train (accs : List ℚ) (best_acc : ℚ) (saved : List ℚ) : ℚ × List ℚ :=
  accs.foldl epochEnd (best_acc, saved)

/-- Self-training driver of main (run_ld.py lines 827-888), restricted to
the watermark: `best_acc` starts at 0 and the value returned by each
round's `train` call is threaded unchanged into the next round. -/
def mainLoop (rounds : List (List ℚ)) : ℚ × List ℚ :=
  rounds.foldl (fun s accs => train accs s.1 s.2) (0, [])

end RunLD

/-! ## Theorems

### Dictionary lemmas
-/

theorem dictFind_dictInsert_self {κ β : Type} [DecidableEq κ]
    (d : List (κ × β)) (k : κ) (v : β) : dictFind (dictInsert d k v) k = some v := by
  induction d with
  | nil => simp [dictInsert, dictFind]
  | cons kv rest ih =>
    by_cases h : kv.1 = k
    · simp [dictInsert, dictFind, h]
    · simp [dictInsert, dictFind, h, ih]

theorem dictFind_dictInsert_ne {κ β : Type} [DecidableEq κ]
    (d : List (κ × β)) (k k' : κ) (v : β) (hne : k ≠ k') :
    dictFind (dictInsert d k v) k' = dictFind d k' := by
  induction d with
  | nil => simp [dictInsert, dictFind, hne]
  | cons kv rest ih =>
    by_cases h : kv.1 = k
    · simp [dictInsert, dictFind, h, hne]
    · simp [dictInsert, dictFind, h, ih]

theorem dictFind_dictInsert {κ β : Type} [DecidableEq κ]
    (d : List (κ × β)) (k k' : κ) (v : β) :
    dictFind (dictInsert d k v) k' = if k = k' then some v else dictFind d k' := by
  by_cases h : k = k'
  · subst h; simp [dictFind_dictInsert_self]
  · simp [h, dictFind_dictInsert_ne d k k' v h]

/-! ### Lemmas about the FGM attack/restore loops -/

namespace AT

theorem attackLoop_fst (epsilon : ℚ) (emb_name : String) :
    ∀ (ps : List Param) (b : List (String × F)),
      (attackLoop epsilon emb_name ps b).1 = ps.map (attackParam epsilon emb_name) := by
  intro ps
  induction ps with
  | nil => intro b; rfl
  | cons p rest ih =>
    intro b
    by_cases h : matchesFilter emb_name p
    · simp only [attackLoop, h, if_pos, List.map_cons, ih]
      cases hg : p.grad with
      | none => simp [attackParam, h, hg]
      | some g => by_cases hz : |g| ≠ 0 <;> simp [attackParam, h, hg, hz]
    · simp [attackLoop, h, ih, attackParam]

theorem attackLoop_snd (epsilon : ℚ) (emb_name : String) :
    ∀ (ps : List Param) (b : List (String × F)),
      (attackLoop epsilon emb_name ps b).2 = attackBackup emb_name ps b := by
  intro ps
  induction ps with
  | nil => intro b; rfl
  | cons p rest ih =>
    intro b
    by_cases h : matchesFilter emb_name p
    · simp [attackLoop, h, ih, attackBackup, List.foldl_cons]
    · simp [attackLoop, h, ih, attackBackup, List.foldl_cons]

theorem FGM.attack_model (f : FGM) (epsilon : ℚ) (emb_name : String) :
    (f.attack epsilon emb_name).model = f.model.map (attackParam epsilon emb_name) := by
  simp [FGM.attack, attackLoop_fst]

theorem FGM.attack_backup (f : FGM) (epsilon : ℚ) (emb_name : String) :
    (f.attack epsilon emb_name).backup = attackBackup emb_name f.model f.backup := by
  simp [FGM.attack, attackLoop_snd]

theorem attackParam_name (epsilon : ℚ) (emb_name : String) (p : Param) :
    (attackParam epsilon emb_name p).name = p.name := by
  unfold attackParam
  by_cases h : matchesFilter emb_name p
  · simp only [h]
    cases hg : p.grad with
    | none => simp
    | some g => by_cases hz : |g| ≠ 0 <;> simp [hz]
  · simp [h]

theorem attackParam_requiresGrad (epsilon : ℚ) (emb_name : String) (p : Param) :
    (attackParam epsilon emb_name p).requiresGrad = p.requiresGrad := by
  unfold attackParam
  by_cases h : matchesFilter emb_name p
  · simp only [h]
    cases hg : p.grad with
    | none => simp
    | some g => by_cases hz : |g| ≠ 0 <;> simp [hz]
  · simp [h]

theorem attackParam_grad (epsilon : ℚ) (emb_name : String) (p : Param) :
    (attackParam epsilon emb_name p).grad = p.grad := by
  unfold attackParam
  by_cases h : matchesFilter emb_name p
  · simp only [h]
    cases hg : p.grad with
    | none => simp [hg]
    | some g => by_cases hz : |g| ≠ 0 <;> simp [hg, hz]
  · simp [h]

theorem matchesFilter_attackParam (epsilon : ℚ) (emb_name : String) (p : Param) :
    matchesFilter emb_name (attackParam epsilon emb_name p) = matchesFilter emb_name p := by
  unfold matchesFilter
  rw [attackParam_name, attackParam_requiresGrad]

/-- Skipped parameters (zero or NaN gradient norm) are left whole. -/
theorem attackParam_of_skip (epsilon : ℚ) (emb_name : String) (p : Param)
    (hg : p.grad = none ∨ p.grad = some 0) :
    attackParam epsilon emb_name p = p := by
  unfold attackParam
  by_cases h : matchesFilter emb_name p
  · rcases hg with hg | hg <;> simp [h, hg]
  · simp [h]

theorem attackParam_of_not_matches (epsilon : ℚ) (emb_name : String) (p : Param)
    (h : matchesFilter emb_name p = false) :
    attackParam epsilon emb_name p = p := by
  unfold attackParam
  simp [h]

/-- Overwriting the data field with a target's data yields the target when
all other fields agree. -/
theorem Param.withData (q p : Param) (hn : q.name = p.name)
    (hr : q.requiresGrad = p.requiresGrad) (hg : q.grad = p.grad) :
    { q with data := p.data } = p := by
  cases q; cases p; simp_all

theorem attackBackup_find_of_forall_ne (emb_name : String) :
    ∀ (ps : List Param) (b : List (String × F)) (k : String),
      (∀ p ∈ ps, p.name ≠ k) →
      dictFind (attackBackup emb_name ps b) k = dictFind b k := by
  intro ps
  induction ps with
  | nil => intro b k _; rfl
  | cons p rest ih =>
    intro b k hk
    have hrest : ∀ q ∈ rest, q.name ≠ k := fun q hq => hk q (List.mem_cons_of_mem p hq)
    by_cases h : matchesFilter emb_name p
    · simp only [attackBackup, List.foldl_cons, h, if_pos]
      rw [show (rest.foldl (fun d q => if matchesFilter emb_name q then
            dictInsert d q.name q.data else d) (dictInsert b p.name p.data)) =
            attackBackup emb_name rest (dictInsert b p.name p.data) from rfl]
      rw [ih (dictInsert b p.name p.data) k hrest]
      exact dictFind_dictInsert_ne b p.name k p.data (hk p (List.mem_cons_self p rest))
    · simp only [attackBackup, List.foldl_cons, h]
      simpa using ih b k hrest

theorem attackBackup_find_mono (emb_name : String) :
    ∀ (ps : List Param) (b : List (String × F)) (k : String),
      dictFind b k ≠ none → dictFind (attackBackup emb_name ps b) k ≠ none := by
  intro ps
  induction ps with
  | nil => intro b k h; exact h
  | cons p rest ih =>
    intro b k h
    by_cases hm : matchesFilter emb_name p
    · simp only [attackBackup, List.foldl_cons, hm, if_pos]
      refine ih (dictInsert b p.name p.data) k ?_
      rw [dictFind_dictInsert]
      by_cases he : p.name = k <;> simp [he, h]
    · simp only [attackBackup, List.foldl_cons, hm]
      simpa using ih b k h

theorem attackBackup_find_of_mem (emb_name : String) :
    ∀ (ps : List Param) (b : List (String × F)) (p : Param),
      p ∈ ps → matchesFilter emb_name p = true →
      dictFind (attackBackup emb_name ps b) p.name ≠ none := by
  intro ps
  induction ps with
  | nil => intro b p hp; exact absurd hp (List.not_mem_nil p)
  | cons q rest ih =>
    intro b p hp hm
    rcases List.mem_cons.mp hp with rfl | hp'
    · simp only [attackBackup, List.foldl_cons, hm, if_pos]
      refine attackBackup_find_mono emb_name rest (dictInsert b p.name p.data) p.name ?_
      rw [dictFind_dictInsert_self]
      simp
    · by_cases hq : matchesFilter emb_name q
      · simp only [attackBackup, List.foldl_cons, hq, if_pos]
        exact ih (dictInsert b q.name q.data) p hp' hm
      · simp only [attackBackup, List.foldl_cons, hq]
        simpa using ih b p hp' hm

theorem attackBackup_find_nodup (emb_name : String) :
    ∀ (ps : List Param) (b : List (String × F)) (p : Param),
      p ∈ ps → matchesFilter emb_name p = true →
      (ps.map Param.name).Nodup →
      dictFind (attackBackup emb_name ps b) p.name = some p.data := by
  intro ps
  induction ps with
  | nil => intro b p hp; exact absurd hp (List.not_mem_nil p)
  | cons q rest ih =>
    intro b p hp hm hnd
    rw [List.map_cons, List.nodup_cons] at hnd
    rcases List.mem_cons.mp hp with rfl | hp'
    · simp only [attackBackup, List.foldl_cons, hm, if_pos]
      have hne : ∀ x ∈ rest, x.name ≠ p.name := by
        intro x hx he
        exact hnd.1 (he ▸ List.mem_map_of_mem Param.name hx)
      rw [show (rest.foldl (fun d r => if matchesFilter emb_name r then
            dictInsert d r.name r.data else d) (dictInsert b p.name p.data)) =
            attackBackup emb_name rest (dictInsert b p.name p.data) from rfl]
      rw [attackBackup_find_of_forall_ne emb_name rest (dictInsert b p.name p.data) p.name hne]
      exact dictFind_dictInsert_self b p.name p.data
    · by_cases hq : matchesFilter emb_name q
      · simp only [attackBackup, List.foldl_cons, hq, if_pos]
        exact ih (dictInsert b q.name q.data) p hp' hm hnd.2
      · simp only [attackBackup, List.foldl_cons, hq]
        simpa using ih b p hp' hm hnd.2

theorem restoreLoop_isSome (emb_name : String) (b : List (String × F)) :
    ∀ ps : List Param,
      (∀ p ∈ ps, matchesFilter emb_name p = true → dictFind b p.name ≠ none) →
      ∃ ps', restoreLoop emb_name b ps = some ps' := by
  intro ps
  induction ps with
  | nil => intro _; exact ⟨[], rfl⟩
  | cons p rest ih =>
    intro h
    rcases ih (fun q hq => h q (List.mem_cons_of_mem p hq)) with ⟨rest', hrest⟩
    by_cases hm : matchesFilter emb_name p
    · have hfind := h p (List.mem_cons_self p rest) hm
      cases hv : dictFind b p.name with
      | none => exact absurd hv hfind
      | some v =>
        refine ⟨{ p with data := v } :: rest', ?_⟩
        simp [restoreLoop, hm, hv, hrest]
    · refine ⟨p :: rest', ?_⟩
      simp [restoreLoop, hm, hrest]

theorem restoreLoop_restores (epsilon : ℚ) (emb_name : String) (b : List (String × F)) :
    ∀ ps : List Param,
      (∀ p ∈ ps, matchesFilter emb_name p = true → dictFind b p.name = some p.data) →
      restoreLoop emb_name b (ps.map (attackParam epsilon emb_name)) = some ps := by
  intro ps
  induction ps with
  | nil => intro _; rfl
  | cons p rest ih =>
    intro h
    have hrest := ih (fun q hq => h q (List.mem_cons_of_mem p hq))
    by_cases hm : matchesFilter emb_name p
    · have hm' : matchesFilter emb_name (attackParam epsilon emb_name p) = true := by
        rw [matchesFilter_attackParam]; exact hm
      have hfind : dictFind b (attackParam epsilon emb_name p).name = some p.data := by
        rw [attackParam_name]; exact h p (List.mem_cons_self p rest) hm
      have heq : { attackParam epsilon emb_name p with data := p.data } = p :=
        Param.withData _ p (attackParam_name epsilon emb_name p)
          (attackParam_requiresGrad epsilon emb_name p) (attackParam_grad epsilon emb_name p)
      simp [restoreLoop, hm', hfind, hrest, heq]
    · have hm' : matchesFilter emb_name (attackParam epsilon emb_name p) = false := by
        rw [matchesFilter_attackParam]; simpa using hm
      have heq := attackParam_of_not_matches epsilon emb_name p (by simpa using hm)
      simp [restoreLoop, hm', hrest, heq, hm]

end AT

/-! ### Claims about the perturbation engine (at.py) -/

/-- C9: a call to `restore` that immediately follows a call to `attack`
with the same target filter and the same parameter set can never trigger
restore's missing-snapshot assertion, because `attack` snapshots every
matching trainable parameter into the backup before (and regardless of
the outcome of) its gradient-norm check, including parameters with zero
or NaN gradient norm. -/
theorem claim_C9_restore_never_asserts (f : AT.FGM) (epsilon : ℚ) (emb_name : String) :
    ((f.attack epsilon emb_name).restore emb_name).isSome = true := by
  have h : ∀ p' ∈ (f.attack epsilon emb_name).model, AT.matchesFilter emb_name p' = true →
      dictFind (f.attack epsilon emb_name).backup p'.name ≠ none := by
    rw [AT.FGM.attack_model, AT.FGM.attack_backup]
    intro p' hp' hm
    rcases List.mem_map.mp hp' with ⟨p, hp, rfl⟩
    rw [AT.attackParam_name]
    exact AT.attackBackup_find_of_mem emb_name f.model f.backup p hp
      (by rwa [AT.matchesFilter_attackParam] at hm)
  rcases AT.restoreLoop_isSome emb_name (f.attack epsilon emb_name).backup
      (f.attack epsilon emb_name).model h with ⟨ps', hps'⟩
  simp [AT.FGM.restore, hps']

/-- C2: for a parameter set whose target-matching trainable parameters all
have nonzero, non-NaN gradients, `attack` followed immediately by
`restore` (same filter, no intervening step) leaves every parameter value
equal to its pre-attack value and leaves the perturbation backup empty. -/
theorem claim_C2_attack_restore_roundtrip (f : AT.FGM) (epsilon : ℚ) (emb_name : String)
    (hnodup : (f.model.map AT.Param.name).Nodup)
    (hgrad : ∀ p ∈ f.model, AT.matchesFilter emb_name p = true →
      ∃ g : ℚ, p.grad = some g ∧ g ≠ 0) :
    (f.attack epsilon emb_name).restore emb_name = some ⟨f.model, []⟩ := by
  have hfind : ∀ p ∈ f.model, AT.matchesFilter emb_name p = true →
      dictFind (AT.attackBackup emb_name f.model f.backup) p.name = some p.data :=
    fun p hp hm => AT.attackBackup_find_nodup emb_name f.model f.backup p hp hm hnodup
  have h := AT.restoreLoop_restores epsilon emb_name
    (AT.attackBackup emb_name f.model f.backup) f.model hfind
  have hb := AT.FGM.attack_backup f epsilon emb_name
  have hmdl := AT.FGM.attack_model f epsilon emb_name
  unfold AT.FGM.restore
  rw [hb, hmdl, h]

/-- Witness for C2 at a concrete one-parameter model with a nonzero finite
gradient: the parameter is displaced by attack and restored exactly, and
the backup ends empty. -/
theorem claim_C2_attack_restore_roundtrip_witness :
    ((AT.FGM.mk [⟨"emb.w", true, some 1, some 2⟩] []).attack 1 "emb.").restore "emb." =
      some (AT.FGM.mk [⟨"emb.w", true, some 1, some 2⟩] []) :=
  claim_C2_attack_restore_roundtrip ⟨[⟨"emb.w", true, some 1, some 2⟩], []⟩ 1 "emb."
    (by decide)
    (by
      intro p hp hm
      rw [List.mem_singleton] at hp
      subst hp
      exact ⟨2, rfl, by norm_num⟩)

/-- C1 counterexample: a matching trainable parameter with gradient norm
exactly 0 is left unaltered in value, but — contrary to the claim — attack
DOES create a backup entry for it: the snapshot at at.py line 16 happens
before the norm check at lines 17-18. -/
theorem claim_C1_counterexample :
    dictFind ((AT.FGM.mk [⟨"emb.w", true, some 5, some 0⟩] []).attack 1 "emb.").backup "emb.w"
        = some (some 5) ∧
      ((AT.FGM.mk [⟨"emb.w", true, some 5, some 0⟩] []).attack 1 "emb.").model
        = [⟨"emb.w", true, some 5, some 0⟩] := by
  constructor
  · rfl
  · rfl

/-- C1 amended: for every trainable parameter whose name matches the
target filter and whose gradient norm is exactly 0 or NaN, a call to
attack leaves the parameter's value unaltered, but a backup entry keyed by
the parameter's name IS created (the snapshot precedes the norm check). -/
theorem claim_C1_amended_skip_but_backed_up (f : AT.FGM) (epsilon : ℚ) (emb_name : String)
    (i : ℕ) (p : AT.Param)
    (hp : f.model[i]? = some p) (hm : AT.matchesFilter emb_name p = true)
    (hg : p.grad = none ∨ p.grad = some 0) :
    (f.attack epsilon emb_name).model[i]? = some p ∧
      dictFind (f.attack epsilon emb_name).backup p.name ≠ none := by
  constructor
  · rw [AT.FGM.attack_model, List.getElem?_map, hp, Option.map_some',
      AT.attackParam_of_skip epsilon emb_name p hg]
  · rw [AT.FGM.attack_backup]
    exact AT.attackBackup_find_of_mem emb_name f.model f.backup p (List.getElem?_mem hp) hm

/-- Witness for the amended C1 at a concrete zero-gradient parameter. -/
theorem claim_C1_amended_skip_but_backed_up_witness :
    ((AT.FGM.mk [⟨"emb.w", true, some 5, some 0⟩] []).attack 1 "emb.").model[0]?
        = some ⟨"emb.w", true, some 5, some 0⟩ ∧
      dictFind ((AT.FGM.mk [⟨"emb.w", true, some 5, some 0⟩] []).attack 1 "emb.").backup
        "emb.w" ≠ none :=
  claim_C1_amended_skip_but_backed_up ⟨[⟨"emb.w", true, some 5, some 0⟩], []⟩ 1 "emb." 0
    ⟨"emb.w", true, some 5, some 0⟩ (by decide) (by decide) (Or.inr rfl)

/-! ### Lemmas about the confidence ranker: grouping by predicted label -/

namespace RunLD

theorem bucketJoin_nil (o : Option (List (ℕ × ℚ))) : bucketJoin o [] = o := by
  cases o <;> simp [bucketJoin]

theorem dictFind_append_single {κ β : Type} [DecidableEq κ]
    (d : List (κ × β)) (k c : κ) (v : β) :
    dictFind (d ++ [(k, v)]) c =
      match dictFind d c with
      | some b => some b
      | none => if k = c then some v else none := by
  induction d with
  | nil => simp [dictFind]
  | cons kv rest ih =>
    by_cases h : kv.1 = c
    · simp [dictFind, h]
    · simp [dictFind, h, ih]

theorem addRecord_find (d : List (ℕ × List (ℕ × ℚ))) (i : ℕ) (item : ℕ × ℚ) (c : ℕ) :
    dictFind (addRecord d i item) c =
      if item.1 = c then some ((dictFind d item.1).getD [] ++ [(i, item.2)])
      else dictFind d c := by
  unfold addRecord
  cases hfound : dictFind d item.1 with
  | none =>
    rw [dictFind_append_single]
    by_cases h : item.1 = c
    · subst h; simp [hfound]
    · simp [h]
      cases hc : dictFind d c <;> simp
  | some b =>
    rw [dictFind_dictInsert]
    by_cases h : item.1 = c
    · subst h; simp [hfound]
    · simp [h]

theorem buildAux_find :
    ∀ (l : List (ℕ × ℚ)) (i0 : ℕ) (d : List (ℕ × List (ℕ × ℚ))) (c : ℕ),
      dictFind (buildAux i0 l d) c = bucketJoin (dictFind d c) (bucketSpec i0 l c) := by
  intro l
  induction l with
  | nil => intro i0 d c; simp [buildAux, bucketSpec, bucketJoin_nil]
  | cons item rest ih =>
    intro i0 d c
    rw [show buildAux i0 (item :: rest) d = buildAux (i0 + 1) rest (addRecord d i0 item)
      from rfl]
    rw [ih (i0 + 1) (addRecord d i0 item) c, addRecord_find]
    by_cases h : item.1 = c
    · subst h
      rw [if_pos rfl]
      show bucketJoin (some ((dictFind d item.1).getD [] ++ [(i0, item.2)]))
          (bucketSpec (i0 + 1) rest item.1) =
        bucketJoin (dictFind d item.1) (bucketSpec i0 (item :: rest) item.1)
      cases hd : dictFind d item.1 with
      | none => simp [bucketJoin, bucketSpec]
      | some b => simp [bucketJoin, bucketSpec]
    · rw [if_neg h]
      have : bucketSpec i0 (item :: rest) c = bucketSpec (i0 + 1) rest c := by
        simp [bucketSpec, h]
      rw [this]

theorem buildLabel2Id_find (id2conf : List (ℕ × ℚ)) (c : ℕ) :
    dictFind (buildLabel2Id id2conf) c =
      if bucketSpec 0 id2conf c = [] then none else some (bucketSpec 0 id2conf c) := by
  unfold buildLabel2Id
  rw [buildAux_find id2conf 0 [] c]
  rfl

theorem bucketSpec_mem :
    ∀ (l : List (ℕ × ℚ)) (i0 : ℕ) (c : ℕ) (x : ℕ × ℚ), x ∈ bucketSpec i0 l c →
      i0 ≤ x.1 ∧ x.1 < i0 + l.length ∧ l[x.1 - i0]? = some (c, x.2) := by
  intro l
  induction l with
  | nil => intro i0 c x hx; simp [bucketSpec] at hx
  | cons item rest ih =>
    intro i0 c x hx
    rw [bucketSpec, List.mem_append] at hx
    rcases hx with hx | hx
    · by_cases h : item.1 = c
      · simp only [h, if_pos, List.mem_singleton] at hx
        subst hx
        refine ⟨le_refl i0, by simp, ?_⟩
        have hitem : item = (c, item.2) := by
          rw [← h]
        simp only [Nat.sub_self, List.getElem?_cons_zero]
        exact congrArg some hitem
      · simp [h] at hx
    · rcases ih (i0 + 1) c x hx with ⟨h1, h2, h3⟩
      have hgt : i0 < x.1 := lt_of_lt_of_le (Nat.lt_succ_self i0) h1
      rw [List.length_cons] at *
      refine ⟨le_of_lt hgt, by omega, ?_⟩
      have hidx : x.1 - i0 = (x.1 - (i0 + 1)) + 1 := by omega
      rw [hidx]
      simpa using h3

theorem bucketSpec_pairwise :
    ∀ (l : List (ℕ × ℚ)) (i0 : ℕ) (c : ℕ),
      List.Pairwise (fun a b => a.1 < b.1) (bucketSpec i0 l c) := by
  intro l
  induction l with
  | nil => intro i0 c; simp [bucketSpec]
  | cons item rest ih =>
    intro i0 c
    rw [bucketSpec]
    by_cases h : item.1 = c
    · simp only [h, if_pos]
      rw [List.singleton_append, List.pairwise_cons]
      refine ⟨?_, ih (i0 + 1) c⟩
      intro x hx
      exact lt_of_lt_of_le (Nat.lt_succ_self i0) (bucketSpec_mem rest (i0 + 1) c x hx).1
    · simpa [h] using ih (i0 + 1) c

theorem bucketSpec_length :
    ∀ (l : List (ℕ × ℚ)) (i0 : ℕ) (c : ℕ),
      (bucketSpec i0 l c).length = l.countP (fun r => r.1 = c) := by
  intro l
  induction l with
  | nil => intro i0 c; simp [bucketSpec]
  | cons item rest ih =>
    intro i0 c
    rw [bucketSpec, List.length_append, ih (i0 + 1) c, List.countP_cons]
    by_cases h : item.1 = c <;> simp [h, Nat.add_comm]

theorem bucketSpec_eq_nil_iff (l : List (ℕ × ℚ)) (i0 : ℕ) (c : ℕ) :
    bucketSpec i0 l c = [] ↔ ∀ r ∈ l, r.1 ≠ c := by
  rw [← List.length_eq_zero, bucketSpec_length, List.countP_eq_zero]
  simp

end RunLD

/-! ### Lemmas about the confidence ranker: per-label selection -/

namespace RunLD

theorem confDesc_perm (l : List (ℕ × ℚ)) : List.Perm (confDesc l) l :=
  List.perm_insertionSort confGE l

theorem confDesc_length (l : List (ℕ × ℚ)) : (confDesc l).length = l.length :=
  (confDesc_perm l).length_eq

theorem selFor_length (id2conf : List (ℕ × ℚ)) (k i : ℕ) :
    (selFor (buildLabel2Id id2conf) k i).length =
      min k (id2conf.countP (fun r => r.1 = i)) := by
  unfold selFor
  rw [buildLabel2Id_find]
  by_cases h : bucketSpec 0 id2conf i = []
  · rw [if_pos h]
    have hc : id2conf.countP (fun r => r.1 = i) = 0 := by
      rw [← bucketSpec_length id2conf 0 i, h]
      rfl
    simp [hc]
  · rw [if_neg h]
    simp only [List.length_take, confDesc_length, bucketSpec_length]

theorem selFor_length_le (l2i : List (ℕ × List (ℕ × ℚ))) (k i : ℕ) :
    (selFor l2i k i).length ≤ k := by
  unfold selFor
  cases dictFind l2i i with
  | none => simp
  | some b => simp [Nat.min_le_left k (confDesc b).length]

theorem selFor_mem (id2conf : List (ℕ × ℚ)) (k i : ℕ) (x : ℕ × ℚ)
    (hx : x ∈ selFor (buildLabel2Id id2conf) k i) : x ∈ bucketSpec 0 id2conf i := by
  unfold selFor at hx
  rw [buildLabel2Id_find] at hx
  by_cases h : bucketSpec 0 id2conf i = []
  · rw [if_pos h] at hx
    simp at hx
  · rw [if_neg h] at hx
    exact (confDesc_perm _).mem_iff.mp (List.mem_of_mem_take hx)

theorem selFor_getElem (id2conf : List (ℕ × ℚ)) (k i : ℕ) (x : ℕ × ℚ)
    (hx : x ∈ selFor (buildLabel2Id id2conf) k i) :
    x.1 < id2conf.length ∧ id2conf[x.1]? = some (i, x.2) := by
  rcases bucketSpec_mem id2conf 0 i x (selFor_mem id2conf k i x hx) with ⟨_, h2, h3⟩
  rw [Nat.sub_zero] at h3
  exact ⟨by omega, h3⟩

theorem selFor_fst_nodup (id2conf : List (ℕ × ℚ)) (k i : ℕ) :
    ((selFor (buildLabel2Id id2conf) k i).map Prod.fst).Nodup := by
  unfold selFor
  rw [buildLabel2Id_find]
  by_cases h : bucketSpec 0 id2conf i = []
  · simp [h]
  · rw [if_neg h]
    have hnd : ((bucketSpec 0 id2conf i).map Prod.fst).Nodup :=
      (bucketSpec_pairwise id2conf 0 i).map Prod.fst (fun a b hab => Nat.ne_of_lt hab)
    have hsorted : ((confDesc (bucketSpec 0 id2conf i)).map Prod.fst).Nodup :=
      (((confDesc_perm _).map Prod.fst).nodup_iff).mpr hnd
    exact (((List.take_sublist k _).map Prod.fst)).nodup hsorted

theorem selIdx_cons (l2i : List (ℕ × List (ℕ × ℚ))) (k i : ℕ) (labels : List ℕ) :
    selIdx l2i k (i :: labels) = (selFor l2i k i).map Prod.fst ++ selIdx l2i k labels := by
  simp [selIdx]

theorem selIdx_mem (id2conf : List (ℕ × ℚ)) (k : ℕ) (labels : List ℕ) (j : ℕ)
    (hj : j ∈ selIdx (buildLabel2Id id2conf) k labels) :
    ∃ i ∈ labels, ∃ q : ℚ, (j, q) ∈ selFor (buildLabel2Id id2conf) k i := by
  unfold selIdx at hj
  rw [List.mem_flatMap] at hj
  rcases hj with ⟨i, hi, hmem⟩
  rw [List.mem_map] at hmem
  rcases hmem with ⟨x, hx, rfl⟩
  refine ⟨i, hi, x.2, ?_⟩
  rw [Prod.mk.eta]
  exact hx

theorem selIdx_lt (id2conf : List (ℕ × ℚ)) (k : ℕ) (labels : List ℕ) (j : ℕ)
    (hj : j ∈ selIdx (buildLabel2Id id2conf) k labels) : j < id2conf.length := by
  rcases selIdx_mem id2conf k labels j hj with ⟨i, _, q, hq⟩
  exact (selFor_getElem id2conf k i (j, q) hq).1

theorem selIdx_nodup (id2conf : List (ℕ × ℚ)) (k : ℕ) :
    ∀ labels : List ℕ, labels.Nodup → (selIdx (buildLabel2Id id2conf) k labels).Nodup := by
  intro labels
  induction labels with
  | nil => intro _; simp [selIdx]
  | cons i rest ih =>
    intro hnd
    rw [List.nodup_cons] at hnd
    rw [selIdx_cons, List.nodup_append]
    refine ⟨selFor_fst_nodup id2conf k i, ih hnd.2, ?_⟩
    intro j hj1 hj2
    rw [List.mem_map] at hj1
    rcases hj1 with ⟨x, hx, rfl⟩
    rcases selIdx_mem id2conf k rest x.1 hj2 with ⟨i', hi', q', hq'⟩
    have h1 : id2conf[x.1]? = some (i, x.2) := (selFor_getElem id2conf k i x hx).2
    have h2 : id2conf[x.1]? = some (i', q') := (selFor_getElem id2conf k i' (x.1, q') hq').2
    have : i = i' := by
      rw [h1] at h2
      exact (Prod.mk.injEq _ _ _ _).mp (Option.some.injEq _ _ ▸ h2 : (i, x.2) = (i', q')) |>.1
    exact hnd.1 (this ▸ hi')

theorem selIdx_length_le (l2i : List (ℕ × List (ℕ × ℚ))) (k : ℕ) :
    ∀ labels : List ℕ, (selIdx l2i k labels).length ≤ labels.length * k := by
  intro labels
  induction labels with
  | nil => simp [selIdx]
  | cons i rest ih =>
    rw [selIdx_cons, List.length_append, List.length_map, List.length_cons,
      Nat.succ_mul]
    have := selFor_length_le l2i k i
    omega

theorem selIdx_length_sum (id2conf : List (ℕ × ℚ)) (k : ℕ) :
    ∀ labels : List ℕ,
      (selIdx (buildLabel2Id id2conf) k labels).length =
        (labels.map (fun i => min k (id2conf.countP (fun r => r.1 = i)))).sum := by
  intro labels
  induction labels with
  | nil => simp [selIdx]
  | cons i rest ih =>
    rw [selIdx_cons, List.length_append, List.length_map, List.map_cons, List.sum_cons,
      selFor_length, ih]

theorem foldl_promote_pairs (g : (ℕ × ℚ) → Example) :
    ∀ (sel : List (ℕ × ℚ)) (acc : List ℕ × List Example),
      sel.foldl (fun a i2c => (a.1 ++ [i2c.1], a.2 ++ [g i2c])) acc =
        (acc.1 ++ sel.map Prod.fst, acc.2 ++ sel.map g) := by
  intro sel
  induction sel with
  | nil => intro acc; simp
  | cons x rest ih =>
    intro acc
    rw [List.foldl_cons, ih]
    simp

theorem promoteStep_eq (l2i : List (ℕ × List (ℕ × ℚ))) (ev : List Example) (k : ℕ)
    (acc : List ℕ × List Example) (i : ℕ) :
    promoteStep l2i ev k acc i =
      (acc.1 ++ (selFor l2i k i).map Prod.fst,
       acc.2 ++ (selFor l2i k i).map (promoted ev i)) := by
  unfold promoteStep selFor
  cases h : dictFind l2i i with
  | none => simp
  | some b => exact foldl_promote_pairs (promoted ev i) ((confDesc b).take k) acc

theorem foldl_promoteStep (l2i : List (ℕ × List (ℕ × ℚ))) (ev : List Example) (k : ℕ) :
    ∀ (labels : List ℕ) (acc : List ℕ × List Example),
      labels.foldl (promoteStep l2i ev k) acc =
        (acc.1 ++ selIdx l2i k labels,
         acc.2 ++ labels.flatMap (fun i => (selFor l2i k i).map (promoted ev i))) := by
  intro labels
  induction labels with
  | nil => intro acc; simp [selIdx]
  | cons i rest ih =>
    intro acc
    rw [List.foldl_cons, promoteStep_eq, ih, selIdx_cons]
    simp

/-- Closed form of `sort`: the labeled pool grows by the promoted,
relabeled examples taken label by label; the unlabeled pool is the old
one with the selected indices deleted in descending order. -/
theorem sort_eq (tr ev : List Example) (ll : List String) (conf : List (ℕ × ℚ)) (k : ℕ) :
    sort tr ev ll conf k =
      (tr ++ (List.range ll.length).flatMap
          (fun i => (selFor (buildLabel2Id conf) k i).map (promoted ev i)),
       (natDesc (selIdx (buildLabel2Id conf) k (List.range ll.length))).foldl
          (fun l j => l.eraseIdx j) ev) := by
  unfold sort
  simp only [foldl_promoteStep]
  simp

end RunLD

/-! ### Lemmas about the confidence ranker: deletion from the unlabeled pool -/

namespace RunLD

theorem natDesc_perm (l : List ℕ) : List.Perm (natDesc l) l := List.perm_insertionSort natGE l

theorem natDesc_sorted (l : List ℕ) : List.Sorted natGE (natDesc l) :=
  List.sorted_insertionSort natGE l

theorem natDesc_strictDesc (l : List ℕ) (hnd : l.Nodup) :
    List.Pairwise (fun a b => b < a) (natDesc l) := by
  have hs : List.Pairwise natGE (natDesc l) := natDesc_sorted l
  have hn : List.Pairwise (fun a b : ℕ => a ≠ b) (natDesc l) :=
    ((natDesc_perm l).nodup_iff).mpr hnd
  exact (hs.and hn).imp (fun h => lt_of_le_of_ne h.1 h.2.symm)

theorem getD_eraseIdx_of_lt {α : Type} (l : List α) (j i : ℕ) (d0 : α) (h : i < j) :
    (l.eraseIdx j).getD i d0 = l.getD i d0 := by
  rw [List.getD_eq_getElem?_getD, List.getD_eq_getElem?_getD,
    List.getElem?_eraseIdx_of_lt l j i h]

theorem perm_getD_cons_eraseIdx {α : Type} (l : List α) (j : ℕ) (d0 : α) (h : j < l.length) :
    List.Perm l (l.getD j d0 :: l.eraseIdx j) := by
  rw [List.eraseIdx_eq_take_drop_succ]
  have hl : l = l.take j ++ l.getD j d0 :: l.drop (j + 1) := by
    conv_lhs => rw [← List.take_append_drop j l]
    congr 1
    rw [List.drop_eq_getElem_cons h]
    congr 1
    rw [List.getD_eq_getElem?_getD, List.getElem?_eq_getElem h]
    rfl
  conv_lhs => rw [hl]
  exact List.perm_middle

/-- Deleting a strictly descending list of valid positions removes
exactly the elements at those positions (run_ld.py lines 410-411). -/
theorem foldl_eraseIdx_perm {α : Type} (d0 : α) :
    ∀ (ids : List ℕ) (l : List α),
      List.Pairwise (fun a b => b < a) ids → (∀ i ∈ ids, i < l.length) →
      List.Perm ((ids.foldl (fun acc j => acc.eraseIdx j) l) ++
        ids.map (fun i => l.getD i d0)) l := by
  intro ids
  induction ids with
  | nil => intro l _ _; simp
  | cons j rest ih =>
    intro l hpw hlt
    rw [List.pairwise_cons] at hpw
    have hjl : j < l.length := hlt j (List.mem_cons_self j rest)
    have hrest_lt : ∀ i ∈ rest, i < (l.eraseIdx j).length := by
      intro i hi
      have h1 : i < j := hpw.1 i hi
      rw [List.length_eraseIdx_of_lt hjl]
      omega
    have hIH := ih (l.eraseIdx j) hpw.2 hrest_lt
    have hmap : rest.map (fun i => (l.eraseIdx j).getD i d0) =
        rest.map (fun i => l.getD i d0) := by
      apply List.map_congr_left
      intro i hi
      exact getD_eraseIdx_of_lt l j i d0 (hpw.1 i hi)
    rw [hmap] at hIH
    rw [List.foldl_cons, List.map_cons]
    refine List.Perm.trans List.perm_middle ?_
    refine List.Perm.trans (List.Perm.cons _ hIH) ?_
    exact (perm_getD_cons_eraseIdx l j d0 hjl).symm

theorem flatMap_promoted_length (l2i : List (ℕ × List (ℕ × ℚ))) (ev : List Example) (k : ℕ) :
    ∀ labels : List ℕ,
      (labels.flatMap (fun i => (selFor l2i k i).map (promoted ev i))).length =
        (selIdx l2i k labels).length := by
  intro labels
  induction labels with
  | nil => simp [selIdx]
  | cons i rest ih =>
    rw [selIdx_cons]
    simp [ih]

theorem flatMap_promoted_guid (l2i : List (ℕ × List (ℕ × ℚ))) (ev : List Example) (k : ℕ) :
    ∀ labels : List ℕ,
      (labels.flatMap (fun i => (selFor l2i k i).map (promoted ev i))).map Example.guid =
        (selIdx l2i k labels).map (fun j => (ev.getD j exDefault).guid) := by
  intro labels
  induction labels with
  | nil => simp [selIdx]
  | cons i rest ih =>
    rw [selIdx_cons]
    simp only [List.flatMap_cons, List.map_append, ih, List.map_map]
    congr 1

theorem sort_fst_length (tr ev : List Example) (ll : List String) (conf : List (ℕ × ℚ))
    (k : ℕ) :
    (sort tr ev ll conf k).1.length =
      tr.length + (selIdx (buildLabel2Id conf) k (List.range ll.length)).length := by
  rw [sort_eq]
  simp only [List.length_append]
  rw [flatMap_promoted_length]

theorem sort_snd_perm (tr ev : List Example) (ll : List String) (conf : List (ℕ × ℚ))
    (k : ℕ) (hlen : conf.length = ev.length) :
    List.Perm ((sort tr ev ll conf k).2 ++
      (natDesc (selIdx (buildLabel2Id conf) k (List.range ll.length))).map
        (fun i => ev.getD i exDefault)) ev := by
  rw [sort_eq]
  refine foldl_eraseIdx_perm exDefault
    (natDesc (selIdx (buildLabel2Id conf) k (List.range ll.length))) ev ?_ ?_
  · exact natDesc_strictDesc _
      (selIdx_nodup conf k (List.range ll.length) (List.nodup_range ll.length))
  · intro i hi
    have hmem : i ∈ selIdx (buildLabel2Id conf) k (List.range ll.length) :=
      (natDesc_perm _).mem_iff.mp hi
    have := selIdx_lt conf k (List.range ll.length) i hmem
    omega

theorem sort_snd_length (tr ev : List Example) (ll : List String) (conf : List (ℕ × ℚ))
    (k : ℕ) (hlen : conf.length = ev.length) :
    (sort tr ev ll conf k).2.length +
      (selIdx (buildLabel2Id conf) k (List.range ll.length)).length = ev.length := by
  have h := (sort_snd_perm tr ev ll conf k hlen).length_eq
  rw [List.length_append, List.length_map, (natDesc_perm _).length_eq] at h
  exact h

end RunLD

/-! ### Lemmas about the warmup schedule and the watermark -/

namespace RunLD

theorem epochEnd_fst_le (s : ℚ × List ℚ) (a : ℚ) : s.1 ≤ (epochEnd s a).1 := by
  unfold epochEnd
  by_cases h : a > s.1
  · rw [if_pos h]
    exact le_of_lt h
  · rw [if_neg h]

theorem train_fst_le (accs : List ℚ) : ∀ (b : ℚ) (sv : List ℚ), b ≤ (train accs b sv).1 := by
  induction accs with
  | nil => intro b sv; exact le_refl b
  | cons a rest ih =>
    intro b sv
    unfold train
    rw [List.foldl_cons]
    exact le_trans (epochEnd_fst_le (b, sv) a)
      (ih (epochEnd (b, sv) a).1 (epochEnd (b, sv) a).2)

theorem epochEnd_inv (s : ℚ × List ℚ) (a : ℚ)
    (h1 : List.Chain' (· < ·) s.2) (h2 : ∀ x ∈ s.2, x ≤ s.1) :
    List.Chain' (· < ·) (epochEnd s a).2 ∧ ∀ x ∈ (epochEnd s a).2, x ≤ (epochEnd s a).1 := by
  unfold epochEnd
  by_cases h : a > s.1
  · rw [if_pos h]
    constructor
    · rw [List.chain'_append]
      refine ⟨h1, List.chain'_singleton a, ?_⟩
      intro x hx y hy
      have hxs : x ∈ s.2 := List.mem_of_getLast?_eq_some hx
      have hya : a = y := by simpa using hy
      subst hya
      exact lt_of_le_of_lt (h2 x hxs) h
    · intro x hx
      rcases List.mem_append.mp hx with hx | hx
      · exact le_trans (h2 x hx) (le_of_lt h)
      · rw [List.mem_singleton] at hx
        subst hx
        exact le_refl x
  · rw [if_neg h]
    exact ⟨h1, h2⟩

theorem foldl_epochEnd_inv (accs : List ℚ) : ∀ s : ℚ × List ℚ,
    List.Chain' (· < ·) s.2 → (∀ x ∈ s.2, x ≤ s.1) →
    List.Chain' (· < ·) (accs.foldl epochEnd s).2 ∧
      ∀ x ∈ (accs.foldl epochEnd s).2, x ≤ (accs.foldl epochEnd s).1 := by
  induction accs with
  | nil => intro s h1 h2; exact ⟨h1, h2⟩
  | cons a rest ih =>
    intro s h1 h2
    rw [List.foldl_cons]
    rcases epochEnd_inv s a h1 h2 with ⟨h1', h2'⟩
    exact ih (epochEnd s a) h1' h2'

theorem foldl_rounds_inv (rounds : List (List ℚ)) : ∀ s : ℚ × List ℚ,
    List.Chain' (· < ·) s.2 → (∀ x ∈ s.2, x ≤ s.1) →
    List.Chain' (· < ·) ((rounds.foldl (fun s accs => train accs s.1 s.2) s)).2 ∧
      ∀ x ∈ ((rounds.foldl (fun s accs => train accs s.1 s.2) s)).2,
        x ≤ ((rounds.foldl (fun s accs => train accs s.1 s.2) s)).1 := by
  induction rounds with
  | nil => intro s h1 h2; exact ⟨h1, h2⟩
  | cons r rest ih =>
    intro s h1 h2
    rw [List.foldl_cons]
    rcases foldl_epochEnd_inv r s h1 h2 with ⟨h1', h2'⟩
    exact ih (train r s.1 s.2) h1' h2'

end RunLD

/-! ### Claims about the warmup schedule, the learning rate, and the watermark -/

/-- C5: for progress ratio `x ≥ 0` and warmup fraction `w > 0`, the
learning-rate multiplier equals `x/w` when `x < w` and `1 - x` otherwise
(including at `x = w` and beyond; the decay tail is `1 - x`, not
`(1-x)/(1-w)`). -/
theorem claim_C5_warmup_schedule (x w : ℚ) (hx : 0 ≤ x) (hw : 0 < w) :
    (x < w → RunLD.warmup_linear x w = x / w) ∧
      (w ≤ x → RunLD.warmup_linear x w = 1 - x) := by
  constructor
  · intro h
    simp [RunLD.warmup_linear, h]
  · intro h
    simp [RunLD.warmup_linear, not_lt.mpr h]

/-- Witness for C5: one point in the warmup ramp, one in the decay tail. -/
theorem claim_C5_warmup_schedule_witness :
    RunLD.warmup_linear (1/4) (1/2) = (1/4) / (1/2) ∧
      RunLD.warmup_linear (3/4) (1/2) = 1 - 3/4 :=
  ⟨(claim_C5_warmup_schedule (1/4) (1/2) (by norm_num) (by norm_num)).1 (by norm_num),
   (claim_C5_warmup_schedule (3/4) (1/2) (by norm_num) (by norm_num)).2 (by norm_num)⟩

/-- C10: once the global step count reaches the planned total `t_total`
(progress ratio at least 1) and the warmup fraction is below 1,
`warmup_linear` returns `1 - x ≤ 0`, so the training loop sets a zero or
negative effective learning rate rather than clamping at zero. -/
theorem claim_C10_negative_lr_tail (lr : ℚ) (gs tt : ℕ) (w : ℚ)
    (htt : 0 < tt) (hgs : tt ≤ gs) (hw : w < 1) (hlr : 0 < lr) :
    RunLD.warmup_linear ((gs : ℚ) / (tt : ℚ)) w = 1 - (gs : ℚ) / (tt : ℚ) ∧
      RunLD.lr_this_step lr gs tt w ≤ 0 := by
  have htt' : (0 : ℚ) < (tt : ℚ) := by
    exact_mod_cast htt
  have hx : (1 : ℚ) ≤ (gs : ℚ) / (tt : ℚ) := by
    rw [le_div_iff htt']
    simpa using (by exact_mod_cast hgs : (tt : ℚ) ≤ (gs : ℚ))
  have hnot : ¬ ((gs : ℚ) / (tt : ℚ) < w) := not_lt.mpr (le_trans (le_of_lt hw) hx)
  constructor
  · simp [RunLD.warmup_linear, hnot]
  · unfold RunLD.lr_this_step RunLD.warmup_linear
    rw [if_neg hnot]
    have h1 : 1 - (gs : ℚ) / (tt : ℚ) ≤ 0 := by linarith
    have := mul_le_mul_of_nonneg_left h1 (le_of_lt hlr)
    simpa using this

/-- Witness for C10: two steps past a one-step plan give multiplier -1 and
a negative learning rate. -/
theorem claim_C10_negative_lr_tail_witness :
    RunLD.warmup_linear (((2 : ℕ) : ℚ) / ((1 : ℕ) : ℚ)) (1/10) =
        1 - ((2 : ℕ) : ℚ) / ((1 : ℕ) : ℚ) ∧
      RunLD.lr_this_step 1 2 1 (1/10) ≤ 0 :=
  claim_C10_negative_lr_tail 1 2 1 (1/10) (by norm_num) (by norm_num) (by norm_num)
    (by norm_num)

/-- C6: the best-accuracy watermark is monotone across a multi-round run:
an epoch-end evaluation raises the watermark (persisting a checkpoint)
only when its accuracy strictly exceeds it, `train` returns a value at
least the `best_acc` it was given, the returned value is threaded
unchanged into the next round, and consequently the accuracies at which
checkpoints are persisted form a strictly increasing sequence over the
whole run. -/
theorem claim_C6_monotone_watermark :
    (∀ (s : ℚ × List ℚ) (a : ℚ), a ≤ s.1 → RunLD.epochEnd s a = s) ∧
    (∀ (accs : List ℚ) (b : ℚ) (sv : List ℚ), b ≤ (RunLD.train accs b sv).1) ∧
    (∀ (rounds : List (List ℚ)) (r : List ℚ),
      RunLD.mainLoop (rounds ++ [r]) =
        RunLD.train r (RunLD.mainLoop rounds).1 (RunLD.mainLoop rounds).2) ∧
    (∀ rounds : List (List ℚ), List.Chain' (· < ·) (RunLD.mainLoop rounds).2) := by
  refine ⟨?_, RunLD.train_fst_le, ?_, ?_⟩
  · intro s a h
    unfold RunLD.epochEnd
    rw [if_neg (not_lt.mpr h)]
  · intro rounds r
    unfold RunLD.mainLoop
    rw [List.foldl_append]
    rfl
  · intro rounds
    exact (RunLD.foldl_rounds_inv rounds (0, []) (List.chain'_nil) (by simp)).1

/-- Witness for C6, discharging the strict-improvement hypothesis at a
concrete state. -/
theorem claim_C6_monotone_watermark_witness :
    RunLD.epochEnd ((3 : ℚ), []) 2 = ((3 : ℚ), []) ∧
      (2 : ℚ) ≤ (RunLD.train [1, 5, 4] 2 []).1 ∧
      RunLD.mainLoop [[1]] =
        RunLD.train [1] (RunLD.mainLoop []).1 (RunLD.mainLoop []).2 ∧
      List.Chain' (· < ·) (RunLD.mainLoop [[1, 5, 4]]).2 :=
  ⟨claim_C6_monotone_watermark.1 (3, []) 2 (by norm_num),
   claim_C6_monotone_watermark.2.1 [1, 5, 4] 2 [],
   claim_C6_monotone_watermark.2.2.1 [] [1],
   claim_C6_monotone_watermark.2.2.2 [[1, 5, 4]]⟩

/-! ### Claims about the confidence ranker -/

/-- C3: one ranking call conserves the total pool size, and moves at most
`num_k * |label vocabulary|` examples from the unlabeled to the labeled
pool.  The hypothesis states that the confidence-record list carries one
record per unlabeled example. -/
theorem claim_C3_pool_conservation (train_examples eval_examples : List RunLD.Example)
    (label_list : List String) (id2conf : List (ℕ × ℚ)) (num_k : ℕ)
    (hlen : id2conf.length = eval_examples.length) :
    (RunLD.sort train_examples eval_examples label_list id2conf num_k).1.length +
        (RunLD.sort train_examples eval_examples label_list id2conf num_k).2.length =
      train_examples.length + eval_examples.length ∧
    (RunLD.sort train_examples eval_examples label_list id2conf num_k).1.length -
        train_examples.length ≤ num_k * label_list.length := by
  have h1 := RunLD.sort_fst_length train_examples eval_examples label_list id2conf num_k
  have h2 := RunLD.sort_snd_length train_examples eval_examples label_list id2conf num_k hlen
  have h3 := RunLD.selIdx_length_le (RunLD.buildLabel2Id id2conf) num_k
    (List.range label_list.length)
  rw [List.length_range] at h3
  constructor
  · omega
  · rw [h1, Nat.add_sub_cancel_left, Nat.mul_comm]
    exact h3

/-- Witness for C3 at a concrete three-example unlabeled pool with a
two-label vocabulary and `num_k = 1`. -/
theorem claim_C3_pool_conservation_witness :
    (RunLD.sort [⟨1, 9⟩] [⟨2, 9⟩, ⟨3, 9⟩, ⟨4, 9⟩] ["a", "b"]
          [(0, 1/2), (1, 3/4), (0, 7/8)] 1).1.length +
        (RunLD.sort [⟨1, 9⟩] [⟨2, 9⟩, ⟨3, 9⟩, ⟨4, 9⟩] ["a", "b"]
          [(0, 1/2), (1, 3/4), (0, 7/8)] 1).2.length =
      ([⟨1, 9⟩] : List RunLD.Example).length +
        ([⟨2, 9⟩, ⟨3, 9⟩, ⟨4, 9⟩] : List RunLD.Example).length ∧
    (RunLD.sort [⟨1, 9⟩] [⟨2, 9⟩, ⟨3, 9⟩, ⟨4, 9⟩] ["a", "b"]
          [(0, 1/2), (1, 3/4), (0, 7/8)] 1).1.length -
        ([⟨1, 9⟩] : List RunLD.Example).length ≤ 1 * (["a", "b"] : List String).length :=
  claim_C3_pool_conservation [⟨1, 9⟩] [⟨2, 9⟩, ⟨3, 9⟩, ⟨4, 9⟩] ["a", "b"]
    [(0, 1/2), (1, 3/4), (0, 7/8)] 1 (by decide)

/-- C8: a class with no predicted candidates is skipped (its selection is
empty), every class still promotes `min num_k (number of its candidates)`
examples — in particular up to `num_k` for classes with candidates — the
labeled pool grows by exactly the sum of those counts, and the pool sizes
stay consistent with the conservation property. -/
theorem claim_C8_empty_class_skipped (train_examples eval_examples : List RunLD.Example)
    (label_list : List String) (id2conf : List (ℕ × ℚ)) (num_k : ℕ) (c : ℕ)
    (hlen : id2conf.length = eval_examples.length)
    (hc : ∀ r ∈ id2conf, r.1 ≠ c) :
    RunLD.selFor (RunLD.buildLabel2Id id2conf) num_k c = [] ∧
    (∀ i : ℕ, (RunLD.selFor (RunLD.buildLabel2Id id2conf) num_k i).length =
      min num_k (id2conf.countP (fun r => r.1 = i))) ∧
    (RunLD.sort train_examples eval_examples label_list id2conf num_k).1.length =
      train_examples.length +
        ((List.range label_list.length).map
          (fun i => min num_k (id2conf.countP (fun r => r.1 = i)))).sum ∧
    (RunLD.sort train_examples eval_examples label_list id2conf num_k).1.length +
        (RunLD.sort train_examples eval_examples label_list id2conf num_k).2.length =
      train_examples.length + eval_examples.length := by
  refine ⟨?_, ?_, ?_, ?_⟩
  · unfold RunLD.selFor
    rw [RunLD.buildLabel2Id_find,
      if_pos ((RunLD.bucketSpec_eq_nil_iff id2conf 0 c).mpr hc)]
  · intro i
    exact RunLD.selFor_length id2conf num_k i
  · rw [RunLD.sort_fst_length, RunLD.selIdx_length_sum]
  · have h1 := RunLD.sort_fst_length train_examples eval_examples label_list id2conf num_k
    have h2 := RunLD.sort_snd_length train_examples eval_examples label_list id2conf num_k hlen
    omega

/-- Witness for C8: vocabulary of four labels, no example predicted class
2; classes 0, 1, 3 promote one example each. -/
theorem claim_C8_empty_class_skipped_witness :
    RunLD.selFor (RunLD.buildLabel2Id
        ([(0, 1/2), (1, 1/2), (3, 1/2), (0, 1/4)] : List (ℕ × ℚ))) 1 2 = [] ∧
    (RunLD.selFor (RunLD.buildLabel2Id
        ([(0, 1/2), (1, 1/2), (3, 1/2), (0, 1/4)] : List (ℕ × ℚ))) 1 0).length =
      min 1 (([(0, 1/2), (1, 1/2), (3, 1/2), (0, 1/4)] : List (ℕ × ℚ)).countP
        (fun r => r.1 = 0)) ∧
    (RunLD.sort [] [⟨1, 9⟩, ⟨2, 9⟩, ⟨3, 9⟩, ⟨4, 9⟩] ["0", "1", "2", "3"]
        [(0, 1/2), (1, 1/2), (3, 1/2), (0, 1/4)] 1).1.length =
      ([] : List RunLD.Example).length +
        ((List.range (["0", "1", "2", "3"] : List String).length).map
          (fun i => min 1 (([(0, 1/2), (1, 1/2), (3, 1/2), (0, 1/4)] : List (ℕ × ℚ)).countP
            (fun r => r.1 = i)))).sum ∧
    (RunLD.sort [] [⟨1, 9⟩, ⟨2, 9⟩, ⟨3, 9⟩, ⟨4, 9⟩] ["0", "1", "2", "3"]
        [(0, 1/2), (1, 1/2), (3, 1/2), (0, 1/4)] 1).1.length +
      (RunLD.sort [] [⟨1, 9⟩, ⟨2, 9⟩, ⟨3, 9⟩, ⟨4, 9⟩] ["0", "1", "2", "3"]
        [(0, 1/2), (1, 1/2), (3, 1/2), (0, 1/4)] 1).2.length =
      ([] : List RunLD.Example).length +
        ([⟨1, 9⟩, ⟨2, 9⟩, ⟨3, 9⟩, ⟨4, 9⟩] : List RunLD.Example).length := by
  have h := claim_C8_empty_class_skipped [] [⟨1, 9⟩, ⟨2, 9⟩, ⟨3, 9⟩, ⟨4, 9⟩]
    ["0", "1", "2", "3"] [(0, 1/2), (1, 1/2), (3, 1/2), (0, 1/4)] 1 2
    (by decide) (by decide)
  exact ⟨h.1, h.2.1 0, h.2.2.1, h.2.2.2⟩

/-- C7: when the labeled and unlabeled pools are disjoint on example
identifiers before the call (and identifiers within the unlabeled pool
are distinct, as produced by dataset parsing), no identifier appears in
both pools after one ranking call: every promoted example is appended to
the labeled pool and its index is removed from the unlabeled pool. -/
theorem claim_C7_pool_disjointness (train_examples eval_examples : List RunLD.Example)
    (label_list : List String) (id2conf : List (ℕ × ℚ)) (num_k : ℕ)
    (hlen : id2conf.length = eval_examples.length)
    (hdisj : ∀ g : ℕ, g ∈ train_examples.map RunLD.Example.guid →
      g ∈ eval_examples.map RunLD.Example.guid → False)
    (hnd : (eval_examples.map RunLD.Example.guid).Nodup) :
    List.Disjoint
      ((RunLD.sort train_examples eval_examples label_list id2conf num_k).1.map
        RunLD.Example.guid)
      ((RunLD.sort train_examples eval_examples label_list id2conf num_k).2.map
        RunLD.Example.guid) := by
  intro g hg1 hg2
  have hperm := (RunLD.sort_snd_perm train_examples eval_examples label_list id2conf num_k
    hlen).map RunLD.Example.guid
  rw [List.map_append] at hperm
  have hfst : (RunLD.sort train_examples eval_examples label_list id2conf num_k).1 =
      train_examples ++ (List.range label_list.length).flatMap
        (fun i => (RunLD.selFor (RunLD.buildLabel2Id id2conf) num_k i).map
          (RunLD.promoted eval_examples i)) := by
    rw [RunLD.sort_eq]
  rw [hfst, List.map_append, List.mem_append] at hg1
  rcases hg1 with hg1 | hg1
  · have hgev : g ∈ eval_examples.map RunLD.Example.guid :=
      hperm.mem_iff.mp (List.mem_append.mpr (Or.inl hg2))
    exact hdisj g hg1 hgev
  · rw [RunLD.flatMap_promoted_guid] at hg1
    have hB : g ∈ ((RunLD.natDesc (RunLD.selIdx (RunLD.buildLabel2Id id2conf) num_k
        (List.range label_list.length))).map
          (fun i => eval_examples.getD i RunLD.exDefault)).map RunLD.Example.guid := by
      rw [List.map_map]
      exact (((RunLD.natDesc_perm (RunLD.selIdx (RunLD.buildLabel2Id id2conf) num_k
        (List.range label_list.length))).map _).mem_iff).mpr hg1
    have hcnt := hperm.count_eq g
    rw [List.count_append] at hcnt
    have hA : 0 < ((RunLD.sort train_examples eval_examples label_list id2conf
        num_k).2.map RunLD.Example.guid).count g := List.count_pos_iff.mpr hg2
    have hBc : 0 < (((RunLD.natDesc (RunLD.selIdx (RunLD.buildLabel2Id id2conf) num_k
        (List.range label_list.length))).map
          (fun i => eval_examples.getD i RunLD.exDefault)).map RunLD.Example.guid).count g :=
      List.count_pos_iff.mpr hB
    have hle := (List.nodup_iff_count_le_one.mp hnd) g
    omega

/-- Witness for C7 at a concrete two-example unlabeled pool: after the
ranking call the two resulting pools carry disjoint identifiers. -/
theorem claim_C7_pool_disjointness_witness :
    List.Disjoint
      ((RunLD.sort [⟨1, 9⟩] [⟨2, 9⟩, ⟨3, 9⟩] ["a"] [(0, 1/2), (0, 3/4)] 1).1.map
        RunLD.Example.guid)
      ((RunLD.sort [⟨1, 9⟩] [⟨2, 9⟩, ⟨3, 9⟩] ["a"] [(0, 1/2), (0, 3/4)] 1).2.map
        RunLD.Example.guid) :=
  claim_C7_pool_disjointness [⟨1, 9⟩] [⟨2, 9⟩, ⟨3, 9⟩] ["a"] [(0, 1/2), (0, 3/4)] 1
    (by decide)
    (by
      intro g h1 h2
      simp at h1 h2
      omega)
    (by decide)

/-! ### Stability of the descending confidence sort -/

namespace RunLD

theorem filter_orderedInsert_of_eq (c : ℚ) (x : ℕ × ℚ) (hx : x.2 = c) :
    ∀ l : List (ℕ × ℚ),
      (List.orderedInsert confGE x l).filter (fun p => p.2 = c) =
        x :: l.filter (fun p => p.2 = c) := by
  intro l
  induction l with
  | nil => simp [List.orderedInsert, hx]
  | cons y rest ih =>
    simp only [List.orderedInsert]
    by_cases h : confGE x y
    · rw [if_pos h]
      simp [List.filter_cons, hx]
    · rw [if_neg h]
      have hy : ¬ (y.2 = c) := by
        intro hyc
        exact h (le_of_eq (by rw [hyc, hx]))
      simp [List.filter_cons, hy, ih]

theorem filter_orderedInsert_of_ne (c : ℚ) (x : ℕ × ℚ) (hx : ¬ (x.2 = c)) :
    ∀ l : List (ℕ × ℚ),
      (List.orderedInsert confGE x l).filter (fun p => p.2 = c) =
        l.filter (fun p => p.2 = c) := by
  intro l
  induction l with
  | nil => simp [List.orderedInsert, hx]
  | cons y rest ih =>
    simp only [List.orderedInsert]
    by_cases h : confGE x y
    · rw [if_pos h]
      simp [List.filter_cons, hx]
    · rw [if_neg h]
      simp [List.filter_cons, ih]

/-- The descending-confidence sort is stable: the subsequence of entries
with any fixed confidence is exactly preserved, so among equal scores the
original (index) order survives. -/
theorem confDesc_stable (l : List (ℕ × ℚ)) (c : ℚ) :
    (confDesc l).filter (fun p => p.2 = c) = l.filter (fun p => p.2 = c) := by
  unfold confDesc
  induction l with
  | nil => rfl
  | cons x rest ih =>
    simp only [List.insertionSort]
    by_cases hx : x.2 = c
    · rw [filter_orderedInsert_of_eq c x hx (List.insertionSort confGE rest), ih]
      simp [List.filter_cons, hx]
    · rw [filter_orderedInsert_of_ne c x hx (List.insertionSort confGE rest), ih]
      simp [List.filter_cons, hx]

end RunLD

/-- C4: the ranker's descending sort is stable — among candidates of one
class with equal confidence scores, original pool-index order is
preserved (the equal-score subsequence is untouched by sorting) — and in
the concrete two-way tie at confidence 0.91 with `num_k = 1` the example
with the lower original pool index (guid 10 at index 0) is the one
promoted (`mkRat 91 100` is the exact rational 0.91). -/
theorem claim_C4_tie_break_determinism :
    (∀ (l : List (ℕ × ℚ)) (c : ℚ),
        (RunLD.confDesc l).filter (fun p => p.2 = c) = l.filter (fun p => p.2 = c)) ∧
      RunLD.sort [] [⟨10, 5⟩, ⟨20, 5⟩] ["x"] [(0, mkRat 91 100), (0, mkRat 91 100)] 1 =
        ([⟨10, 0⟩], [⟨20, 5⟩]) :=
  ⟨RunLD.confDesc_stable, by decide⟩
